import Mathlib

set_option maxHeartbeats 1000000

/-!
Verification of the batch image renamer (src/changename3.py): a shallow
embedding of its template engine, collision guard, two-phase rename
transaction and undo executor, together with theorems about them.

Modelling conventions:
* A directory is modelled as an association list `Fs` from file names to
  file identities (inode-like natural numbers).  All paths of one run live
  in a single directory, so a path is represented by its file name, and the
  names are canonical: `Path.resolve()` is the identity on them.
* `Path.rename` is modelled with POSIX `os.rename` semantics: it fails when
  the source is missing, is a no-op when source and target coincide, and
  otherwise moves the entry, replacing any existing target.
* Python `SystemExit` failures become `Option`/`Except`/tagged results; the
  log file persisted by `save_log` is modelled as a separate output channel
  of `execute_and_log` rather than as an entry of the directory map.
* Template counter values are Python `int`s, modelled as `Int`; Python
  `str(i)` is `toString i` and `str.zfill` is `pyZfill`.
* Python `str.isdigit` is modelled as ASCII `Char.isDigit`; templates are
  scanned over their character lists exactly as the source scans by index.
-/

/-- A segment of a parsed template, as produced by `tokenize_template`:
literal text, an x-run shared counter of a given width, or a digit-run
per-run counter of a given width and start value. -/
inductive Segment where
  | lit (text : String)
  | x (width : Nat)
  | d (width : Nat) (startVal : Nat)
  deriving DecidableEq

deriving instance DecidableEq for Except

/-- Numeric value of an ASCII digit run, as Python `int(run)`. -/
def digitsToNat (cs : List Char) : Nat :=
  cs.foldl (fun a c => a * 10 + (c.toNat - 48)) 0

/-- Scanner of `tokenize_template` (changename3.py lines 82-137) over the
remaining characters: a bracket span becomes a literal holding the text up
to the next close bracket (failing when there is none), an x-run becomes a
shared-counter segment, a digit run becomes a per-run counter segment whose
start value is the run's numeric value, and any other maximal run becomes a
literal. -/
def tokAux (l : List Char) : Option (List Segment) :=
  match l with
  | [] => some []
  | c :: rest =>
    if c = '[' then
      if (rest.dropWhile (fun ch => ch != ']')).isEmpty then none
      else
        (tokAux (rest.dropWhile (fun ch => ch != ']')).tail).map (fun segs =>
          Segment.lit (String.mk (rest.takeWhile (fun ch => ch != ']'))) :: segs)
    else if c = 'x' ∨ c = 'X' then
      (tokAux (rest.dropWhile (fun ch => ch == 'x' || ch == 'X'))).map (fun segs =>
        Segment.x ((rest.takeWhile (fun ch => ch == 'x' || ch == 'X')).length + 1) :: segs)
    else if c.isDigit then
      (tokAux (rest.dropWhile Char.isDigit)).map (fun segs =>
        Segment.d ((rest.takeWhile Char.isDigit).length + 1)
          (digitsToNat (c :: rest.takeWhile Char.isDigit)) :: segs)
    else
      (tokAux (rest.dropWhile (fun ch => !ch.isDigit && ch != 'x' && ch != 'X' && ch != '['))).map
        (fun segs =>
          Segment.lit (String.mk (c :: rest.takeWhile
            (fun ch => !ch.isDigit && ch != 'x' && ch != 'X' && ch != '['))) :: segs)
termination_by l.length
decreasing_by
  all_goals
    simp only [List.length_cons]
    have h1 : (rest.dropWhile (fun ch => ch != ']')).length ≤ rest.length :=
      (List.dropWhile_suffix _).sublist.length_le
    have h2 : (rest.dropWhile (fun ch => ch == 'x' || ch == 'X')).length ≤ rest.length :=
      (List.dropWhile_suffix _).sublist.length_le
    have h3 : (rest.dropWhile Char.isDigit).length ≤ rest.length :=
      (List.dropWhile_suffix _).sublist.length_le
    have h4 : (rest.dropWhile
        (fun ch => !ch.isDigit && ch != 'x' && ch != 'X' && ch != '[')).length ≤ rest.length :=
      (List.dropWhile_suffix _).sublist.length_le
    have h5 : (rest.dropWhile (fun ch => ch != ']')).tail.length =
        (rest.dropWhile (fun ch => ch != ']')).length - 1 := List.length_tail _
    omega

/-- `tokenize_template` on a pattern string. -/
def tokenize_template (tpl : String) : Option (List Segment) :=
  tokAux tpl.data

/-- Python `str.zfill`: left-pad with zeros up to the requested width,
keeping a leading sign character in front; never truncates. -/
def pyZfill (s : String) (w : Nat) : String :=
  if w ≤ s.length then s
  else
    match s.data with
    | [] => String.mk (List.replicate w '0')
    | c :: cs =>
      if c = '-' ∨ c = '+' then
        String.mk (c :: (List.replicate (w - s.length) '0' ++ cs))
      else
        String.mk (List.replicate (w - s.length) '0' ++ (c :: cs))

/-- One formatted counter value in `render_from_segments`: zero-padded via
`str.zfill` when the segment width exceeds 1, plain decimal otherwise. -/
def renderCounter (v : Int) (width : Nat) : String :=
  if width > 1 then pyZfill (toString v) width else toString v

/-- `render_from_segments` (changename3.py lines 140-156), recursing over
the segments and moving the cursor `d_idx` through the per-run counter
values; a missing per-run value is the Python `IndexError`. -/
def renderAux (segs : List Segment) (x_val : Int) (d_vals : List Int) (d_idx : Nat) :
    Option String :=
  match segs with
  | [] => some ""
  | Segment.lit t :: rest =>
    (renderAux rest x_val d_vals d_idx).map (fun s => t ++ s)
  | Segment.x w :: rest =>
    (renderAux rest x_val d_vals d_idx).map (fun s => renderCounter x_val w ++ s)
  | Segment.d w _ :: rest =>
    match d_vals.get? d_idx with
    | none => none
    | some v => (renderAux rest x_val d_vals (d_idx + 1)).map (fun s => renderCounter v w ++ s)

/-- `render_from_segments` with the per-run cursor at the start. -/
def render_from_segments (segs : List Segment) (x_val : Int) (d_vals : List Int) :
    Option String :=
  renderAux segs x_val d_vals 0

/-- `count_d_segments`: the number of per-run counter segments. -/
def count_d_segments (segs : List Segment) : Nat :=
  segs.countP (fun s => match s with | Segment.d _ _ => true | _ => false)

/-- `has_x_segment`: whether a shared-counter segment is present. -/
def has_x_segment (segs : List Segment) : Bool :=
  segs.any (fun s => match s with | Segment.x _ => true | _ => false)

/-- `init_d_counters`: the start values of the per-run counter segments in
template order. -/
def init_d_counters (segs : List Segment) : List Int :=
  segs.filterMap (fun s => match s with | Segment.d _ v => some (Int.ofNat v) | _ => none)

/-- Python `Path.suffix`: the last dot-suffix of the file name, empty unless
the last dot sits strictly inside the name. -/
def pySuffix (name : String) : String :=
  let cs := name.data
  match cs.reverse.findIdx? (fun ch => ch == '.') with
  | none => ""
  | some k =>
    let i := cs.length - 1 - k
    if 0 < i ∧ i < cs.length - 1 then String.mk (cs.drop i) else ""

/-- The planning loop of `main` (changename3.py lines 373-381): render each
candidate's base name, append the candidate's original extension, then
advance the shared counter when an x segment is present and advance every
per-run counter. -/
def build_pairs (cands : List String) (segs : List Segment) (x_counter : Int)
    (d_counters : List Int) : Option (List (String × String)) :=
  match cands with
  | [] => some []
  | p :: ps =>
    match render_from_segments segs x_counter d_counters with
    | none => none
    | some base =>
      (build_pairs ps segs
          (if has_x_segment segs then x_counter + 1 else x_counter)
          (if 0 < count_d_segments segs then d_counters.map (fun v => v + 1)
           else d_counters)).map
        (fun rest => (p, base ++ pySuffix p) :: rest)

/-- Failures of the template stage of `main`. -/
inductive PlanError where
  | UnbalancedBracket
  | TemplateHasNoCounter
  | RenderArity
  deriving DecidableEq

/-- Template stage of `main` (changename3.py lines 363-381): tokenize the
template, reject templates with neither an x segment nor a digit segment,
then run the planning loop with the shared counter at `start` and the
per-run counters at their digit-run start values. -/
def plan_from_template (tpl : String) (start : Int) (cands : List String) :
    Except PlanError (List (String × String)) :=
  match tokenize_template tpl with
  | none => .error .UnbalancedBracket
  | some segs =>
    if has_x_segment segs = false ∧ count_d_segments segs = 0 then
      .error .TemplateHasNoCounter
    else
      match build_pairs cands segs start (init_d_counters segs) with
      | none => .error .RenderArity
      | some prs => .ok prs

/-- A directory: file names with their file identities. -/
abbrev Fs := List (String × Nat)

/-- The identity currently stored under a name, if any. -/
def lookupFs (n : String) (fs : Fs) : Option Nat :=
  (fs.find? (fun e => e.1 == n)).map (fun e => e.2)

/-- Remove a name from the directory. -/
def eraseFs (n : String) (fs : Fs) : Fs :=
  fs.filter (fun e => e.1 != n)

/-- POSIX `os.rename` as used by `Path.rename`: fails when the source is
missing, is a no-op when source equals target, and otherwise moves the
entry, replacing any existing target. -/
def renameFs (frm tgt : String) (fs : Fs) : Option Fs :=
  match lookupFs frm fs with
  | none => none
  | some ident =>
    if frm = tgt then some fs
    else some ((tgt, ident) :: eraseFs tgt (eraseFs frm fs))

/-- Apply renames in order; a failure returns the directory state reached at
the failing step. -/
def applyRenamesE (ops : List (String × String)) (fs : Fs) : Except Fs Fs :=
  match ops with
  | [] => .ok fs
  | (frm, tgt) :: rest =>
    match renameFs frm tgt fs with
    | none => .error fs
    | some fs1 => applyRenamesE rest fs1

/-- Failures of `ensure_no_collisions`. -/
inductive CollisionError where
  | DuplicateTarget
  | TargetAlreadyExists (name : String)
  deriving DecidableEq

/-- `ensure_no_collisions` (changename3.py lines 172-180): duplicate final
names are rejected first; then any destination that already exists in the
directory and does not resolve to one of the plan's own sources is
rejected. -/
def ensure_no_collisions (pairs : List (String × String)) (fs : Fs) :
    Except CollisionError Unit :=
  if (pairs.map Prod.snd).Nodup then
    match pairs.find? (fun pr =>
        (lookupFs pr.2 fs).isSome && !((pairs.map Prod.fst).contains pr.2)) with
    | some pr => .error (.TargetAlreadyExists pr.2)
    | none => .ok ()
  else .error .DuplicateTarget

/-- `two_phase_rename` (changename3.py lines 183-199): compute the
original-to-final mapping up front, return it with the directory unchanged
on a dry run, and otherwise rename every source to its temp-suffixed name
before renaming any temp name to its destination; the returned mapping
never contains the temporary names. -/
def two_phase_rename (pairs : List (String × String)) (dry_run : Bool)
    (temp_suffix : String) (fs : Fs) : Option (Fs × List (String × String)) :=
  let mapping := pairs
  if dry_run then some (fs, mapping)
  else
    match applyRenamesE (pairs.map (fun pr => (pr.1, pr.1 ++ temp_suffix))) fs with
    | .error _ => none
    | .ok fs1 =>
      match applyRenamesE (pairs.map (fun pr => (pr.1 ++ temp_suffix, pr.2))) fs1 with
      | .error _ => none
      | .ok fs2 => some (fs2, mapping)

/-- Tail of `main` (changename3.py lines 391-398): run the two-phase rename
and persist the mapping as the log record only on a real run; the last
component is the persisted log content, `none` when no log is written. -/
def execute_and_log (pairs : List (String × String)) (dry_run : Bool)
    (temp_suffix : String) (fs : Fs) :
    Option (Fs × List (String × String) × Option (List (String × String))) :=
  match two_phase_rename pairs dry_run temp_suffix fs with
  | none => none
  | some (fs1, mapping) =>
    if dry_run then some (fs1, mapping, none) else some (fs1, mapping, some mapping)

/-- Failures of `undo`. -/
inductive UndoError where
  | UndoSourceMissing (p : String)
  | UndoTargetExists (p : String)
  deriving DecidableEq

/-- Outcome of `undo`: success, a pre-check failure (with the directory
state at the failure), or a rename failure after the checks (with the
partially rewound state). -/
inductive UndoResult where
  | ok (fs : Fs)
  | err (e : UndoError) (fs : Fs)
  | renameFail (fs : Fs)
  deriving DecidableEq

/-- The reverse pair list of `undo`: final-to-original pairs, in reverse of
the forward application order. -/
def undoOps (logPairs : List (String × String)) : List (String × String) :=
  logPairs.reverse.map (fun pr => (pr.2, pr.1))

/-- The pre-check loop of `undo`: each reversed pair's source must exist and
its target must be absent or equal to that source; the first offender
aborts. -/
def undoChecks (ops : List (String × String)) (fs : Fs) : Except UndoError Unit :=
  match ops with
  | [] => .ok ()
  | (frm, tgt) :: rest =>
    if (lookupFs frm fs).isNone then .error (.UndoSourceMissing frm)
    else if (lookupFs tgt fs).isSome ∧ tgt ≠ frm then .error (.UndoTargetExists tgt)
    else undoChecks rest fs

/-- `undo` (changename3.py lines 210-227): pre-check every reversed pair
against the current directory before renaming anything, then (when not a
dry run) rename final names back to original names in reverse order. -/
def undo (logPairs : List (String × String)) (dry_run : Bool) (fs : Fs) : UndoResult :=
  let ops := undoOps logPairs
  match undoChecks ops fs with
  | .error e => .err e fs
  | .ok _ =>
    if dry_run then .ok fs
    else
      match applyRenamesE ops fs with
      | .error fsPartial => .renameFail fsPartial
      | .ok fs1 => .ok fs1

/-- Specification device: the directory lookup after a batch of renames
whose targets are fresh — a name that is a target holds the identity its
source held, a name that is only a source is gone, and any other name is
untouched. -/
def movedLookup (ps : List (String × String)) (fs : Fs) (n : String) : Option Nat :=
  match ps.find? (fun p => p.2 == n) with
  | some p => lookupFs p.1 fs
  | none => if ps.any (fun p => p.1 == n) then none else lookupFs n fs

/-- Specification device: the directory lookup after a completed two-phase
rename — a destination holds its source's identity, sources and temp names
are gone, anything else is untouched. -/
def execLookup (pairs : List (String × String)) (temp_suffix : String) (fs : Fs)
    (n : String) : Option Nat :=
  match pairs.find? (fun p => p.2 == n) with
  | some p => lookupFs p.1 fs
  | none =>
    if pairs.any (fun p => p.1 == n || p.1 ++ temp_suffix == n) then none
    else lookupFs n fs

/-- Conditions under which a batch of renames runs to completion with
predictable effect: distinct sources, distinct targets, every source
present, every target fresh (or the no-op rename), and no target of one
entry being the source of another (except a no-op entry itself). -/
def BatchOK (ps : List (String × String)) (fs : Fs) : Prop :=
  (ps.map Prod.fst).Nodup ∧ (ps.map Prod.snd).Nodup ∧
  (∀ p ∈ ps, (lookupFs p.1 fs).isSome) ∧
  (∀ p ∈ ps, p.2 = p.1 ∨ lookupFs p.2 fs = none) ∧
  (∀ p ∈ ps, ∀ q ∈ ps, p.2 = q.1 → p = q)

/-! ## Basic directory lemmas -/

theorem lookupFs_nil (n : String) : lookupFs n [] = none := rfl

theorem lookupFs_cons (n m : String) (i : Nat) (fs : Fs) :
    lookupFs n ((m, i) :: fs) = if n = m then some i else lookupFs n fs := by
  by_cases h : n = m
  · subst h; simp [lookupFs, List.find?_cons]
  · have hb : (m == n) = false := by
      simp only [beq_eq_false_iff_ne, ne_eq]
      exact fun hh => h hh.symm
    simp [lookupFs, List.find?_cons, hb, h]

theorem lookupFs_eraseFs (n m : String) (fs : Fs) :
    lookupFs n (eraseFs m fs) = if n = m then none else lookupFs n fs := by
  induction fs with
  | nil => by_cases h : n = m <;> simp [lookupFs, eraseFs, h]
  | cons e fs ih =>
    obtain ⟨a, i⟩ := e
    by_cases ham : a = m
    · subst ham
      have : eraseFs a ((a, i) :: fs) = eraseFs a fs := by simp [eraseFs]
      rw [this, ih, lookupFs_cons]
      by_cases h : n = a <;> simp [h]
    · have : eraseFs m ((a, i) :: fs) = (a, i) :: eraseFs m fs := by
        simp [eraseFs, List.filter_cons, ham]
      rw [this, lookupFs_cons, ih, lookupFs_cons]
      by_cases h1 : n = a
      · subst h1; simp [ham]
      · simp [h1]

theorem renameFs_self (frm : String) (fs : Fs) (h : (lookupFs frm fs).isSome) :
    renameFs frm frm fs = some fs := by
  unfold renameFs
  cases hl : lookupFs frm fs with
  | none => rw [hl] at h; simp at h
  | some i => simp

theorem renameFs_move (frm tgt : String) (fs : Fs) (i : Nat) (hne : frm ≠ tgt)
    (h : lookupFs frm fs = some i) :
    renameFs frm tgt fs = some ((tgt, i) :: eraseFs tgt (eraseFs frm fs)) := by
  unfold renameFs
  rw [h]
  simp [hne]

theorem lookupFs_moved (frm tgt n : String) (fs : Fs) (i : Nat) :
    lookupFs n ((tgt, i) :: eraseFs tgt (eraseFs frm fs)) =
      if n = tgt then some i else if n = frm then none else lookupFs n fs := by
  rw [lookupFs_cons, lookupFs_eraseFs, lookupFs_eraseFs]
  by_cases h1 : n = tgt
  · simp [h1]
  · by_cases h2 : n = frm <;> simp [h1, h2]

/-! ## Pair-list lemmas -/

theorem nodup_snd_inj {l : List (String × String)} (h : (l.map Prod.snd).Nodup)
    {p q : String × String} (hp : p ∈ l) (hq : q ∈ l) (heq : p.2 = q.2) : p = q :=
  List.inj_on_of_nodup_map h hp hq heq

theorem nodup_fst_inj {l : List (String × String)} (h : (l.map Prod.fst).Nodup)
    {p q : String × String} (hp : p ∈ l) (hq : q ∈ l) (heq : p.1 = q.1) : p = q :=
  List.inj_on_of_nodup_map h hp hq heq

theorem find?_snd_eq_some {l : List (String × String)} {p : String × String}
    (h : (l.map Prod.snd).Nodup) (hp : p ∈ l) :
    l.find? (fun q => q.2 == p.2) = some p := by
  induction l with
  | nil => cases hp
  | cons a t ih =>
    have h2 : (a.2 :: t.map Prod.snd).Nodup := by simpa using h
    obtain ⟨h2a, h2t⟩ := List.nodup_cons.mp h2
    rcases List.mem_cons.mp hp with rfl | hpt
    · exact List.find?_cons_of_pos _ (by simp)
    · have hne : (a.2 == p.2) = false := by
        simp only [beq_eq_false_iff_ne, ne_eq]
        intro he
        exact h2a (he ▸ List.mem_map_of_mem Prod.snd hpt)
      rw [List.find?_cons_of_neg _ (by simp [hne])]
      exact ih h2t hpt

theorem find?_snd_eq_none {l : List (String × String)} {n : String}
    (h : n ∉ l.map Prod.snd) :
    l.find? (fun q => q.2 == n) = none := by
  rw [List.find?_eq_none]
  intro q hq hqn
  exact h (by
    have : q.2 = n := by simpa using hqn
    exact this ▸ List.mem_map_of_mem Prod.snd hq)

theorem any_fst_iff (l : List (String × String)) (n : String) :
    l.any (fun p => p.1 == n) = true ↔ n ∈ l.map Prod.fst := by
  constructor
  · intro hh
    obtain ⟨p, hp, he⟩ := List.any_eq_true.mp hh
    have : p.1 = n := by simpa using he
    exact this ▸ List.mem_map_of_mem Prod.fst hp
  · intro hh
    obtain ⟨p, hp, he⟩ := List.mem_map.mp hh
    exact List.any_eq_true.mpr ⟨p, hp, by simp [he]⟩

theorem find?_snd_none_of (l : List (String × String)) (n : String)
    (h : ∀ q ∈ l, q.2 ≠ n) : l.find? (fun q => q.2 == n) = none := by
  rw [List.find?_eq_none]
  intro q hq
  simpa using h q hq

theorem any_fst_false_of (l : List (String × String)) (n : String)
    (h : ∀ q ∈ l, q.1 ≠ n) : l.any (fun p => p.1 == n) = false := by
  rw [List.any_eq_false]
  intro q hq
  simpa using h q hq

/-! ## The batch rename lemma -/

theorem applyRenamesE_batch (ps : List (String × String)) (fs : Fs) (h : BatchOK ps fs) :
    ∃ fs', applyRenamesE ps fs = .ok fs' ∧ ∀ n, lookupFs n fs' = movedLookup ps fs n := by
  induction ps generalizing fs with
  | nil =>
    refine ⟨fs, rfl, fun n => ?_⟩
    simp [movedLookup]
  | cons hd rest ih =>
    obtain ⟨a, b⟩ := hd
    obtain ⟨hfst, hsnd, hex, hfresh, hcross⟩ := h
    have hfst' : (a :: rest.map Prod.fst).Nodup := by simpa using hfst
    obtain ⟨ha_nf, hfst_t⟩ := List.nodup_cons.mp hfst'
    have hsnd' : (b :: rest.map Prod.snd).Nodup := by simpa using hsnd
    obtain ⟨hb_ns, hsnd_t⟩ := List.nodup_cons.mp hsnd'
    have hhd_mem : (a, b) ∈ (a, b) :: rest := List.mem_cons_self _ _
    have hhd_nmem : (a, b) ∉ rest := fun hmem => ha_nf (List.mem_map_of_mem Prod.fst hmem)
    obtain ⟨i, hi⟩ := Option.isSome_iff_exists.mp (hex _ hhd_mem)
    have hq1_ne_a : ∀ q ∈ rest, q.1 ≠ a := by
      intro q hq he
      exact ha_nf (he ▸ List.mem_map_of_mem Prod.fst hq)
    have hq1_ne_b : ∀ q ∈ rest, q.1 ≠ b := by
      intro q hq he
      have hqe := hcross _ hhd_mem q (List.mem_cons_of_mem _ hq) he.symm
      exact hhd_nmem (hqe ▸ hq)
    have hq2_ne_b : ∀ q ∈ rest, q.2 ≠ b := by
      intro q hq he
      exact hb_ns (he ▸ List.mem_map_of_mem Prod.snd hq)
    have hq2_ne_a : ∀ q ∈ rest, q.2 ≠ a := by
      intro q hq he
      have hqe := hcross q (List.mem_cons_of_mem _ hq) _ hhd_mem he
      exact hhd_nmem (hqe ▸ hq)
    by_cases hba : b = a
    · subst hba
      have hib : lookupFs b fs = some i := hi
      have hrn : renameFs b b fs = some fs := renameFs_self b fs (hex _ hhd_mem)
      have hstep : applyRenamesE ((b, b) :: rest) fs = applyRenamesE rest fs := by
        simp only [applyRenamesE]
        rw [hrn]
      obtain ⟨fs', happ, hchar⟩ := ih fs
        ⟨hfst_t, hsnd_t, fun q hq => hex q (List.mem_cons_of_mem _ hq),
         fun q hq => hfresh q (List.mem_cons_of_mem _ hq),
         fun p hp q hq hpq =>
           hcross p (List.mem_cons_of_mem _ hp) q (List.mem_cons_of_mem _ hq) hpq⟩
      refine ⟨fs', hstep ▸ happ, fun n => ?_⟩
      rw [hchar n]
      by_cases hn : b = n
      · subst hn
        simp only [movedLookup]
        rw [List.find?_cons_of_pos _ (by simp), find?_snd_none_of rest b hq2_ne_a,
          any_fst_false_of rest b hq1_ne_a]
        simp [hib]
      · have hbn : (b == n) = false := by simpa using hn
        simp only [movedLookup]
        rw [List.find?_cons_of_neg _ (by simp [hbn])]
        cases hfind : rest.find? (fun q => q.2 == n) with
        | some q => rfl
        | none => simp only [List.any_cons, hbn, Bool.false_or]
    · have hb_none : lookupFs b fs = none := by
        rcases hfresh _ hhd_mem with he | he
        · exact absurd he hba
        · exact he
      have hia : lookupFs a fs = some i := hi
      have hrn : renameFs a b fs = some ((b, i) :: eraseFs b (eraseFs a fs)) :=
        renameFs_move a b fs i (fun he => hba he.symm) hia
      set fs1 : Fs := (b, i) :: eraseFs b (eraseFs a fs) with hfs1
      have hlook1 : ∀ m, lookupFs m fs1 =
          if m = b then some i else if m = a then none else lookupFs m fs :=
        fun m => lookupFs_moved a b m fs i
      have hstep : applyRenamesE ((a, b) :: rest) fs = applyRenamesE rest fs1 := by
        simp only [applyRenamesE]
        rw [hrn]
      have hbatch1 : BatchOK rest fs1 := by
        refine ⟨hfst_t, hsnd_t, ?_, ?_, ?_⟩
        · intro q hq
          rw [hlook1, if_neg (hq1_ne_b q hq), if_neg (hq1_ne_a q hq)]
          exact hex q (List.mem_cons_of_mem _ hq)
        · intro q hq
          rcases hfresh q (List.mem_cons_of_mem _ hq) with he | he
          · exact Or.inl he
          · refine Or.inr ?_
            rw [hlook1, if_neg (hq2_ne_b q hq), if_neg (hq2_ne_a q hq)]
            exact he
        · intro p hp q hq hpq
          exact hcross p (List.mem_cons_of_mem _ hp) q (List.mem_cons_of_mem _ hq) hpq
      obtain ⟨fs', happ, hchar⟩ := ih fs1 hbatch1
      refine ⟨fs', hstep ▸ happ, fun n => ?_⟩
      rw [hchar n]
      by_cases hn : b = n
      · subst hn
        simp only [movedLookup]
        rw [List.find?_cons_of_pos _ (by simp), find?_snd_none_of rest b hq2_ne_b,
          any_fst_false_of rest b hq1_ne_b]
        rw [hlook1]
        simp [hia]
      · have hbn : (b == n) = false := by simpa using hn
        simp only [movedLookup]
        rw [List.find?_cons_of_neg _ (by simp [hbn])]
        cases hfind : rest.find? (fun q => q.2 == n) with
        | some q =>
          have hqmem : q ∈ rest := List.mem_of_find?_eq_some hfind
          show lookupFs q.1 fs1 = lookupFs q.1 fs
          rw [hlook1, if_neg (hq1_ne_b q hqmem), if_neg (hq1_ne_a q hqmem)]
        | none =>
          simp only [List.any_cons]
          by_cases hna : a = n
          · have han : (a == n) = true := by simp [hna]
            have hanyf : rest.any (fun p => p.1 == n) = false :=
              any_fst_false_of rest n (fun q hq => hna ▸ hq1_ne_a q hq)
            simp only [han, hanyf, Bool.true_or]
            rw [if_pos trivial, if_neg (by simp : ¬ (false = true))]
            rw [hlook1, if_neg (fun he => hn he.symm), if_pos hna.symm]
          · have han : (a == n) = false := by simpa using hna
            simp only [han, Bool.false_or]
            cases hany : rest.any (fun p => p.1 == n) with
            | true => simp
            | false =>
              simp only [Bool.false_eq_true, if_false]
              rw [hlook1, if_neg (fun he => hn he.symm), if_neg (fun he => hna he.symm)]

/-! ## The two-phase rename characterization -/

theorem two_phase_ok (pairs : List (String × String)) (T : String) (fs : Fs)
    (h1 : (pairs.map Prod.fst).Nodup)
    (h2 : (pairs.map Prod.snd).Nodup)
    (h3 : (pairs.map (fun p => p.1 ++ T)).Nodup)
    (h4 : ∀ p ∈ pairs, (lookupFs p.1 fs).isSome)
    (h5 : ∀ p ∈ pairs, (lookupFs p.2 fs).isSome → p.2 ∈ pairs.map Prod.fst)
    (h6 : ∀ p ∈ pairs, lookupFs (p.1 ++ T) fs = none)
    (h7 : ∀ p ∈ pairs, ∀ q ∈ pairs, p.1 ++ T ≠ q.2)
    (h8 : ∀ p ∈ pairs, ∀ q ∈ pairs, p.1 ++ T ≠ q.1) :
    ∃ fs2, two_phase_rename pairs false T fs = some (fs2, pairs) ∧
      ∀ n, lookupFs n fs2 = execLookup pairs T fs n := by
  have m1f : (pairs.map (fun p => (p.1, p.1 ++ T))).map Prod.fst = pairs.map Prod.fst := by
    rw [List.map_map]; rfl
  have m1s : (pairs.map (fun p => (p.1, p.1 ++ T))).map Prod.snd =
      pairs.map (fun p => p.1 ++ T) := by
    rw [List.map_map]; rfl
  have m2f : (pairs.map (fun p => (p.1 ++ T, p.2))).map Prod.fst =
      pairs.map (fun p => p.1 ++ T) := by
    rw [List.map_map]; rfl
  have m2s : (pairs.map (fun p => (p.1 ++ T, p.2))).map Prod.snd = pairs.map Prod.snd := by
    rw [List.map_map]; rfl
  have hB1 : BatchOK (pairs.map (fun p => (p.1, p.1 ++ T))) fs := by
    refine ⟨m1f ▸ h1, m1s ▸ h3, ?_, ?_, ?_⟩
    · intro q hq
      obtain ⟨p, hp, rfl⟩ := List.mem_map.mp hq
      exact h4 p hp
    · intro q hq
      obtain ⟨p, hp, rfl⟩ := List.mem_map.mp hq
      exact Or.inr (h6 p hp)
    · intro q hq q' hq' he
      obtain ⟨p, hp, rfl⟩ := List.mem_map.mp hq
      obtain ⟨p', hp', rfl⟩ := List.mem_map.mp hq'
      exact absurd he (h8 p hp p' hp')
  obtain ⟨fs1, happ1, hchar1⟩ := applyRenamesE_batch _ fs hB1
  have hfs1_temp : ∀ p ∈ pairs, lookupFs (p.1 ++ T) fs1 = lookupFs p.1 fs := by
    intro p hp
    rw [hchar1]
    have hmem : (p.1, p.1 ++ T) ∈ pairs.map (fun p => (p.1, p.1 ++ T)) :=
      List.mem_map_of_mem _ hp
    have hf := find?_snd_eq_some (m1s ▸ h3) hmem
    rw [movedLookup, hf]
  have hfs1_nontemp : ∀ n, (∀ p ∈ pairs, p.1 ++ T ≠ n) →
      lookupFs n fs1 = if n ∈ pairs.map Prod.fst then none else lookupFs n fs := by
    intro n hnt
    rw [hchar1]
    have hf : (pairs.map (fun p => (p.1, p.1 ++ T))).find? (fun q => q.2 == n) = none := by
      apply find?_snd_none_of
      intro q hq
      obtain ⟨p, hp, rfl⟩ := List.mem_map.mp hq
      exact hnt p hp
    have ha : (pairs.map (fun p => (p.1, p.1 ++ T))).any (fun q => q.1 == n) =
        pairs.any (fun p => p.1 == n) := by
      rw [List.any_map]; rfl
    rw [movedLookup, hf]
    by_cases hmem : n ∈ pairs.map Prod.fst
    · have : pairs.any (fun p => p.1 == n) = true := (any_fst_iff pairs n).mpr hmem
      simp only [ha, this, if_pos hmem]
      simp
    · have : pairs.any (fun p => p.1 == n) = false := by
        cases hx : pairs.any (fun p => p.1 == n) with
        | true => exact absurd ((any_fst_iff pairs n).mp hx) hmem
        | false => rfl
      simp only [ha, this, if_neg hmem]
      simp
  have hB2 : BatchOK (pairs.map (fun p => (p.1 ++ T, p.2))) fs1 := by
    refine ⟨m2f ▸ h3, m2s ▸ h2, ?_, ?_, ?_⟩
    · intro q hq
      obtain ⟨p, hp, rfl⟩ := List.mem_map.mp hq
      show (lookupFs (p.1 ++ T) fs1).isSome
      rw [hfs1_temp p hp]
      exact h4 p hp
    · intro q hq
      obtain ⟨p, hp, rfl⟩ := List.mem_map.mp hq
      refine Or.inr ?_
      show lookupFs p.2 fs1 = none
      rw [hfs1_nontemp p.2 (fun q hq he => h7 q hq p hp he)]
      by_cases hmem : p.2 ∈ pairs.map Prod.fst
      · rw [if_pos hmem]
      · rw [if_neg hmem]
        cases hx : lookupFs p.2 fs with
        | none => rfl
        | some v => exact absurd (h5 p hp (by rw [hx]; rfl)) hmem
    · intro q hq q' hq' he
      obtain ⟨p, hp, rfl⟩ := List.mem_map.mp hq
      obtain ⟨p', hp', rfl⟩ := List.mem_map.mp hq'
      exact absurd he.symm (h7 p' hp' p hp)
  obtain ⟨fs2, happ2, hchar2⟩ := applyRenamesE_batch _ fs1 hB2
  have hrun : two_phase_rename pairs false T fs = some (fs2, pairs) := by
    simp only [two_phase_rename, Bool.false_eq_true, if_false, happ1, happ2]
  refine ⟨fs2, hrun, fun n => ?_⟩
  rw [hchar2 n]
  by_cases hdst : n ∈ pairs.map Prod.snd
  · obtain ⟨p, hp, hpn⟩ := List.mem_map.mp hdst
    have hmem : (p.1 ++ T, p.2) ∈ pairs.map (fun p => (p.1 ++ T, p.2)) :=
      List.mem_map_of_mem _ hp
    have hf2' : (pairs.map (fun p => (p.1 ++ T, p.2))).find? (fun q => q.2 == n) =
        some (p.1 ++ T, p.2) := by
      rw [← hpn]
      exact find?_snd_eq_some (m2s ▸ h2) hmem
    have hfp' : pairs.find? (fun q => q.2 == n) = some p := by
      rw [← hpn]
      exact find?_snd_eq_some h2 hp
    rw [movedLookup, execLookup, hf2', hfp']
    exact hfs1_temp p hp
  · have hf2 : (pairs.map (fun p => (p.1 ++ T, p.2))).find? (fun q => q.2 == n) = none := by
      apply find?_snd_none_of
      intro q hq
      obtain ⟨p, hp, rfl⟩ := List.mem_map.mp hq
      intro he
      have he' : p.2 = n := he
      exact hdst (he' ▸ List.mem_map_of_mem Prod.snd hp)
    have hfp : pairs.find? (fun q => q.2 == n) = none :=
      find?_snd_none_of _ _ (fun q hq he => hdst (he ▸ List.mem_map_of_mem Prod.snd hq))
    have ha2 : (pairs.map (fun p => (p.1 ++ T, p.2))).any (fun q => q.1 == n) =
        pairs.any (fun p => p.1 ++ T == n) := by
      rw [List.any_map]; rfl
    rw [movedLookup, execLookup, hf2, hfp]
    by_cases htmp : ∃ p ∈ pairs, p.1 ++ T = n
    · obtain ⟨p, hp, hpt⟩ := htmp
      have h2t : pairs.any (fun p => p.1 ++ T == n) = true :=
        List.any_eq_true.mpr ⟨p, hp, by simp [hpt]⟩
      have hRT : pairs.any (fun p => p.1 == n || p.1 ++ T == n) = true :=
        List.any_eq_true.mpr ⟨p, hp, by simp [hpt]⟩
      simp only [ha2, h2t, hRT]
      simp
    · have hnontemp : ∀ p ∈ pairs, p.1 ++ T ≠ n := fun p hp he => htmp ⟨p, hp, he⟩
      have h2f : pairs.any (fun p => p.1 ++ T == n) = false := by
        rw [List.any_eq_false]
        intro p hp
        simpa using hnontemp p hp
      simp only [ha2, h2f, Bool.false_eq_true, if_false]
      rw [hfs1_nontemp n hnontemp]
      by_cases hsrc : n ∈ pairs.map Prod.fst
      · have hRT : pairs.any (fun p => p.1 == n || p.1 ++ T == n) = true := by
          obtain ⟨p, hp, hpn⟩ := List.mem_map.mp hsrc
          exact List.any_eq_true.mpr ⟨p, hp, by simp [hpn]⟩
        simp only [if_pos hsrc, hRT]
        simp
      · have hRF : pairs.any (fun p => p.1 == n || p.1 ++ T == n) = false := by
          rw [List.any_eq_false]
          intro p hp
          simp only [Bool.or_eq_true, not_or, beq_iff_eq]
          exact ⟨fun he => hsrc (he ▸ List.mem_map_of_mem Prod.fst hp), hnontemp p hp⟩
        simp only [if_neg hsrc, hRF]
        simp

/-! ## Collision guard characterization -/

theorem ensure_no_collisions_ok_iff (pairs : List (String × String)) (fs : Fs) :
    ensure_no_collisions pairs fs = .ok () ↔
      ((pairs.map Prod.snd).Nodup ∧
       ∀ p ∈ pairs, (lookupFs p.2 fs).isSome → p.2 ∈ pairs.map Prod.fst) := by
  unfold ensure_no_collisions
  by_cases hnd : (pairs.map Prod.snd).Nodup
  · rw [if_pos hnd]
    cases hf : pairs.find? (fun pr =>
        (lookupFs pr.2 fs).isSome && !((pairs.map Prod.fst).contains pr.2)) with
    | some pr =>
      have hmem := List.mem_of_find?_eq_some hf
      have hpred := List.find?_some hf
      simp only [Bool.and_eq_true, Bool.not_eq_true'] at hpred
      constructor
      · intro hh
        exact absurd hh (by simp)
      · rintro ⟨-, hall⟩
        have hs := hall pr hmem hpred.1
        have : (pairs.map Prod.fst).contains pr.2 = true :=
          List.elem_eq_true_of_mem hs
        rw [this] at hpred
        exact absurd hpred.2 (by simp)
    | none =>
      constructor
      · intro _
        refine ⟨hnd, fun p hp hsome => ?_⟩
        have hnp := List.find?_eq_none.mp hf p hp
        simp only [Bool.and_eq_true, Bool.not_eq_true', not_and, hsome] at hnp
        have hc : (pairs.map Prod.fst).contains p.2 = true := by
          cases hx : (pairs.map Prod.fst).contains p.2 with
          | true => rfl
          | false => exact absurd hx (by simpa using hnp)
        exact List.mem_of_elem_eq_true hc
      · intro _
        rfl
  · rw [if_neg hnd]
    constructor
    · intro hh
      exact absurd hh (by simp)
    · rintro ⟨h, -⟩
      exact absurd h hnd

theorem ensure_no_collisions_dup (pairs : List (String × String)) (fs : Fs)
    (h : ¬ (pairs.map Prod.snd).Nodup) :
    ensure_no_collisions pairs fs = .error .DuplicateTarget := by
  unfold ensure_no_collisions
  rw [if_neg h]

/-! ## Undo pre-check lemmas -/

theorem undoChecks_ok (ops : List (String × String)) (fs : Fs)
    (h : ∀ op ∈ ops, (lookupFs op.1 fs).isSome ∧
      ((lookupFs op.2 fs).isSome → op.2 = op.1)) :
    undoChecks ops fs = .ok () := by
  induction ops with
  | nil => rfl
  | cons op rest ih =>
    obtain ⟨frm, tgt⟩ := op
    obtain ⟨hex, htgt⟩ := h _ (List.mem_cons_self _ _)
    have h1 : ¬ ((lookupFs frm fs).isNone = true) := by
      cases hl : lookupFs frm fs with
      | none => rw [hl] at hex; exact absurd hex (by simp)
      | some v => simp
    have h2 : ¬ ((lookupFs tgt fs).isSome ∧ tgt ≠ frm) := by
      rintro ⟨hs, hne⟩
      exact hne (htgt hs)
    simp only [undoChecks]
    rw [if_neg h1, if_neg h2]
    exact ih (fun op hop => h op (List.mem_cons_of_mem _ hop))

theorem undoChecks_err (ops : List (String × String)) (fs : Fs)
    (op : String × String) (hop : op ∈ ops)
    (hbad : ¬ ((lookupFs op.1 fs).isSome ∧
      ((lookupFs op.2 fs).isSome → op.2 = op.1))) :
    ∃ e, undoChecks ops fs = .error e := by
  induction ops with
  | nil => cases hop
  | cons hd rest ih =>
    obtain ⟨frm, tgt⟩ := hd
    by_cases hc1 : (lookupFs frm fs).isNone
    · exact ⟨.UndoSourceMissing frm, by simp only [undoChecks]; rw [if_pos hc1]⟩
    · by_cases hc2 : (lookupFs tgt fs).isSome ∧ tgt ≠ frm
      · exact ⟨.UndoTargetExists tgt, by simp only [undoChecks]; rw [if_neg hc1, if_pos hc2]⟩
      · have hgood : (lookupFs frm fs).isSome ∧ ((lookupFs tgt fs).isSome → tgt = frm) := by
          constructor
          · cases hl : lookupFs frm fs with
            | none => exact absurd (by rw [hl]; rfl) hc1
            | some v => rfl
          · intro hs
            by_contra hne
            exact hc2 ⟨hs, hne⟩
        rcases List.mem_cons.mp hop with rfl | hrest
        · exact absurd hgood hbad
        · obtain ⟨e, he⟩ := ih hrest
          refine ⟨e, ?_⟩
          simp only [undoChecks]
          rw [if_neg hc1, if_neg hc2]
          exact he

/-! ## Undo pair list facts -/

theorem undoOps_map_fst (pairs : List (String × String)) :
    (undoOps pairs).map Prod.fst = (pairs.map Prod.snd).reverse := by
  unfold undoOps
  rw [List.map_map, ← List.map_reverse]
  rfl

theorem undoOps_map_snd (pairs : List (String × String)) :
    (undoOps pairs).map Prod.snd = (pairs.map Prod.fst).reverse := by
  unfold undoOps
  rw [List.map_map, ← List.map_reverse]
  rfl

theorem mem_undoOps_iff (pairs : List (String × String)) (op : String × String) :
    op ∈ undoOps pairs ↔ ∃ p ∈ pairs, op = (p.2, p.1) := by
  unfold undoOps
  constructor
  · intro h
    obtain ⟨p, hp, he⟩ := List.mem_map.mp h
    exact ⟨p, List.mem_reverse.mp hp, he.symm⟩
  · rintro ⟨p, hp, rfl⟩
    exact List.mem_map_of_mem _ (List.mem_reverse.mpr hp)

/-- C1 (amended): for a plan that passes the collision guard, whose sources
are distinct existing files, whose timestamp temp names are fresh, and where
no source path is also the destination of a *different* entry, a real
two-phase rename followed by Undo on the returned mapping restores every
file to its exact original path: the directory lookup after the undo agrees
with the lookup before the forward run on every name.  The restriction on
source/destination overlap is forced by the code: Undo pre-checks every
reversed pair against the post-run directory up front, so a plan such as a
swap is rejected by `UndoTargetExists` before any rename (see the
counterexample theorem). -/
theorem rename_undo_roundtrip (pairs : List (String × String)) (T : String) (fs : Fs)
    (hval : ensure_no_collisions pairs fs = .ok ())
    (hsrc_nd : (pairs.map Prod.fst).Nodup)
    (hsrc_ex : ∀ p ∈ pairs, (lookupFs p.1 fs).isSome)
    (htmp_nd : (pairs.map (fun p => p.1 ++ T)).Nodup)
    (htmp_fresh : ∀ p ∈ pairs, lookupFs (p.1 ++ T) fs = none)
    (htmp_ndst : ∀ p ∈ pairs, ∀ q ∈ pairs, p.1 ++ T ≠ q.2)
    (htmp_nsrc : ∀ p ∈ pairs, ∀ q ∈ pairs, p.1 ++ T ≠ q.1)
    (hnoswap : ∀ p ∈ pairs, p.1 = p.2 ∨ p.1 ∉ pairs.map Prod.snd) :
    ∃ fs2 fs3, two_phase_rename pairs false T fs = some (fs2, pairs) ∧
      undo pairs false fs2 = UndoResult.ok fs3 ∧
      ∀ n, lookupFs n fs3 = lookupFs n fs := by
  obtain ⟨hdst_nd, hvalid⟩ := (ensure_no_collisions_ok_iff pairs fs).mp hval
  obtain ⟨fs2, hrun, hchar2⟩ := two_phase_ok pairs T fs hsrc_nd hdst_nd htmp_nd
    hsrc_ex hvalid htmp_fresh htmp_ndst htmp_nsrc
  have hdst_val : ∀ p ∈ pairs, lookupFs p.2 fs2 = lookupFs p.1 fs := by
    intro p hp
    rw [hchar2]
    unfold execLookup
    rw [find?_snd_eq_some hdst_nd hp]
  have hsrc_val : ∀ p ∈ pairs, p.1 ∉ pairs.map Prod.snd → lookupFs p.1 fs2 = none := by
    intro p hp hnd
    rw [hchar2]
    unfold execLookup
    have hnodst : ∀ q ∈ pairs, q.2 ≠ p.1 := by
      intro q hq he
      exact hnd (he ▸ List.mem_map_of_mem Prod.snd hq)
    rw [find?_snd_none_of _ _ hnodst]
    have hany : pairs.any (fun q => q.1 == p.1 || q.1 ++ T == p.1) = true :=
      List.any_eq_true.mpr ⟨p, hp, by simp⟩
    simp only [hany]
    simp
  have hops_good : ∀ op ∈ undoOps pairs, (lookupFs op.1 fs2).isSome ∧
      ((lookupFs op.2 fs2).isSome → op.2 = op.1) := by
    intro op hop
    obtain ⟨p, hp, rfl⟩ := (mem_undoOps_iff pairs op).mp hop
    constructor
    · show (lookupFs p.2 fs2).isSome
      rw [hdst_val p hp]
      exact hsrc_ex p hp
    · intro hs
      show p.1 = p.2
      rcases hnoswap p hp with he | he
      · exact he
      · rw [hsrc_val p hp he] at hs
        exact absurd hs (by simp)
  have hchecks := undoChecks_ok (undoOps pairs) fs2 hops_good
  have hB : BatchOK (undoOps pairs) fs2 := by
    refine ⟨?_, ?_, ?_, ?_, ?_⟩
    · rw [undoOps_map_fst]
      exact List.nodup_reverse.mpr hdst_nd
    · rw [undoOps_map_snd]
      exact List.nodup_reverse.mpr hsrc_nd
    · intro op hop
      exact (hops_good op hop).1
    · intro op hop
      cases hx : lookupFs op.2 fs2 with
      | none => exact Or.inr rfl
      | some v => exact Or.inl ((hops_good op hop).2 (by rw [hx]; rfl))
    · intro op hop op' hop' he
      obtain ⟨p, hp, rfl⟩ := (mem_undoOps_iff pairs op).mp hop
      obtain ⟨q, hq, rfl⟩ := (mem_undoOps_iff pairs op').mp hop'
      have he' : p.1 = q.2 := he
      rcases hnoswap p hp with hpe | hnd
      · have hsame : p = q := nodup_snd_inj hdst_nd hp hq (hpe.symm.trans he')
        rw [hsame]
      · exact absurd (he' ▸ List.mem_map_of_mem Prod.snd hq) hnd
  obtain ⟨fs3, happ3, hchar3⟩ := applyRenamesE_batch _ fs2 hB
  have hundo : undo pairs false fs2 = UndoResult.ok fs3 := by
    simp only [undo, hchecks, Bool.false_eq_true, if_false, happ3]
  refine ⟨fs2, fs3, hrun, hundo, fun n => ?_⟩
  rw [hchar3 n]
  have hnd_ops_snd : ((undoOps pairs).map Prod.snd).Nodup := by
    rw [undoOps_map_snd]
    exact List.nodup_reverse.mpr hsrc_nd
  by_cases hsrc : n ∈ pairs.map Prod.fst
  · obtain ⟨p, hp, hpn⟩ := List.mem_map.mp hsrc
    have hmem : (p.2, p.1) ∈ undoOps pairs :=
      (mem_undoOps_iff pairs _).mpr ⟨p, hp, rfl⟩
    have hf' : (undoOps pairs).find? (fun q => q.2 == n) = some (p.2, p.1) := by
      rw [← hpn]
      exact find?_snd_eq_some hnd_ops_snd hmem
    rw [movedLookup, hf']
    show lookupFs p.2 fs2 = lookupFs n fs
    rw [hdst_val p hp, hpn]
  · have hf : (undoOps pairs).find? (fun q => q.2 == n) = none := by
      apply find?_snd_none_of
      intro op hop
      obtain ⟨p, hp, rfl⟩ := (mem_undoOps_iff pairs op).mp hop
      intro he
      have he' : p.1 = n := he
      exact hsrc (he' ▸ List.mem_map_of_mem Prod.fst hp)
    rw [movedLookup, hf]
    by_cases hdst : n ∈ pairs.map Prod.snd
    · obtain ⟨p, hp, hpn⟩ := List.mem_map.mp hdst
      have hmem : (p.2, p.1) ∈ undoOps pairs :=
        (mem_undoOps_iff pairs _).mpr ⟨p, hp, rfl⟩
      have hany : (undoOps pairs).any (fun q => q.1 == n) = true :=
        List.any_eq_true.mpr ⟨(p.2, p.1), hmem, by simp [hpn]⟩
      simp only [hany]
      have hnone : lookupFs n fs = none := by
        cases hx : lookupFs n fs with
        | none => rfl
        | some v =>
          have hin := hvalid p hp (by rw [hpn, hx]; rfl)
          exact absurd (hpn ▸ hin) hsrc
      rw [hnone]
      simp
    · have hany : (undoOps pairs).any (fun q => q.1 == n) = false := by
        apply any_fst_false_of
        intro op hop
        obtain ⟨p, hp, rfl⟩ := (mem_undoOps_iff pairs op).mp hop
        intro he
        have he' : p.2 = n := he
        exact hdst (he' ▸ List.mem_map_of_mem Prod.snd hp)
      simp only [hany, Bool.false_eq_true, if_false]
      rw [hchar2 n]
      unfold execLookup
      rw [find?_snd_none_of pairs n
        (fun q hq he => hdst (he ▸ List.mem_map_of_mem Prod.snd hq))]
      by_cases htmp2 : ∃ p ∈ pairs, p.1 ++ T = n
      · obtain ⟨p, hp, hpt⟩ := htmp2
        have hany2 : pairs.any (fun q => q.1 == n || q.1 ++ T == n) = true :=
          List.any_eq_true.mpr ⟨p, hp, by simp [hpt]⟩
        simp only [hany2]
        have hnone : lookupFs n fs = none := hpt ▸ htmp_fresh p hp
        rw [hnone]
        simp
      · have hany2 : pairs.any (fun q => q.1 == n || q.1 ++ T == n) = false := by
          rw [List.any_eq_false]
          intro q hq
          simp only [Bool.or_eq_true, not_or, beq_iff_eq]
          exact ⟨fun he => hsrc (he ▸ List.mem_map_of_mem Prod.fst hq),
            fun he => htmp2 ⟨q, hq, he⟩⟩
        simp only [hany2, Bool.false_eq_true, if_false]

/-- C1 (counterexample): the claim as stated fails on the code.  The swap
plan A maps to B and B maps to A passes the collision guard and the real
two-phase rename completes, but Undo on the returned LogRecord aborts with
`UndoTargetExists` — its up-front pre-check sees the reversal target
`B.jpg` already occupied — leaving the directory in the renamed state
instead of restoring the original paths. -/
theorem rename_undo_roundtrip_cex :
    ensure_no_collisions [("A.jpg", "B.jpg"), ("B.jpg", "A.jpg")]
        [("A.jpg", 0), ("B.jpg", 1)] = .ok () ∧
    two_phase_rename [("A.jpg", "B.jpg"), ("B.jpg", "A.jpg")] false ".__tmp__"
        [("A.jpg", 0), ("B.jpg", 1)] =
      some ([("A.jpg", 1), ("B.jpg", 0)], [("A.jpg", "B.jpg"), ("B.jpg", "A.jpg")]) ∧
    undo [("A.jpg", "B.jpg"), ("B.jpg", "A.jpg")] false [("A.jpg", 1), ("B.jpg", 0)] =
      UndoResult.err (UndoError.UndoTargetExists "B.jpg") [("A.jpg", 1), ("B.jpg", 0)] := by
  refine ⟨by decide, by decide, by decide⟩

/-- C1 (witness): the amended round-trip theorem applied to a concrete
one-entry plan in a directory with a bystander file. -/
theorem rename_undo_roundtrip_witness :
    ∃ fs2 fs3,
      two_phase_rename [("a.jpg", "n001.jpg")] false ".__tmp__"
          [("a.jpg", 7), ("keep.png", 3)] = some (fs2, [("a.jpg", "n001.jpg")]) ∧
      undo [("a.jpg", "n001.jpg")] false fs2 = UndoResult.ok fs3 ∧
      ∀ n, lookupFs n fs3 = lookupFs n [("a.jpg", 7), ("keep.png", 3)] :=
  rename_undo_roundtrip [("a.jpg", "n001.jpg")] ".__tmp__" [("a.jpg", 7), ("keep.png", 3)]
    (by decide) (by decide) (by decide) (by decide) (by decide) (by decide)
    (by decide) (by decide)

/-- C2: Execute is a two-phase rename — all phase-one renames (source to
temp-suffixed name) are applied before any phase-two rename (temp name to
destination) — and consequently a swap plan, A to B and B to A, completes
with neither file overwriting the other: afterwards B holds A's identity, A
holds B's identity, the temp names are gone, every other name is untouched,
and the returned LogRecord mapping is exactly the original-to-final pair
list, never mentioning the temporary names. -/
theorem two_phase_swap (A B : String) (iA iB : Nat) (T : String) (fs : Fs)
    (hAB : A ≠ B)
    (hA : lookupFs A fs = some iA) (hB : lookupFs B fs = some iB)
    (hTA : lookupFs (A ++ T) fs = none) (hTB : lookupFs (B ++ T) fs = none)
    (hne1 : A ++ T ≠ A) (hne2 : A ++ T ≠ B) (hne3 : B ++ T ≠ A) (hne4 : B ++ T ≠ B)
    (hne5 : A ++ T ≠ B ++ T) :
    ∃ fs2, two_phase_rename [(A, B), (B, A)] false T fs = some (fs2, [(A, B), (B, A)]) ∧
      lookupFs B fs2 = some iA ∧ lookupFs A fs2 = some iB ∧
      lookupFs (A ++ T) fs2 = none ∧ lookupFs (B ++ T) fs2 = none ∧
      ∀ n, n ≠ A → n ≠ B → n ≠ A ++ T → n ≠ B ++ T →
        lookupFs n fs2 = lookupFs n fs := by
  have h1 : (([(A, B), (B, A)] : List (String × String)).map Prod.fst).Nodup := by
    simp [hAB]
  have h2 : (([(A, B), (B, A)] : List (String × String)).map Prod.snd).Nodup := by
    simp [Ne.symm hAB]
  have h3 : (([(A, B), (B, A)] : List (String × String)).map (fun p => p.1 ++ T)).Nodup := by
    simp [hne5]
  have h4 : ∀ p ∈ ([(A, B), (B, A)] : List (String × String)),
      (lookupFs p.1 fs).isSome := by
    intro p hp
    fin_cases hp
    · show (lookupFs A fs).isSome
      rw [hA]; rfl
    · show (lookupFs B fs).isSome
      rw [hB]; rfl
  have h5 : ∀ p ∈ ([(A, B), (B, A)] : List (String × String)),
      (lookupFs p.2 fs).isSome → p.2 ∈ ([(A, B), (B, A)] : List (String × String)).map Prod.fst := by
    intro p hp _
    fin_cases hp <;> simp
  have h6 : ∀ p ∈ ([(A, B), (B, A)] : List (String × String)),
      lookupFs (p.1 ++ T) fs = none := by
    intro p hp
    fin_cases hp
    · exact hTA
    · exact hTB
  have h7 : ∀ p ∈ ([(A, B), (B, A)] : List (String × String)),
      ∀ q ∈ ([(A, B), (B, A)] : List (String × String)), p.1 ++ T ≠ q.2 := by
    intro p hp q hq
    fin_cases hp <;> fin_cases hq
    · exact hne2
    · exact hne1
    · exact hne4
    · exact hne3
  have h8 : ∀ p ∈ ([(A, B), (B, A)] : List (String × String)),
      ∀ q ∈ ([(A, B), (B, A)] : List (String × String)), p.1 ++ T ≠ q.1 := by
    intro p hp q hq
    fin_cases hp <;> fin_cases hq
    · exact hne1
    · exact hne2
    · exact hne3
    · exact hne4
  obtain ⟨fs2, hrun, hchar⟩ := two_phase_ok [(A, B), (B, A)] T fs h1 h2 h3 h4 h5 h6 h7 h8
  refine ⟨fs2, hrun, ?_, ?_, ?_, ?_, ?_⟩
  · rw [hchar B]
    unfold execLookup
    rw [List.find?_cons_of_pos _ (by simp)]
    exact hA
  · rw [hchar A]
    unfold execLookup
    rw [List.find?_cons_of_neg _ (by simp [Ne.symm hAB]),
      List.find?_cons_of_pos _ (by simp)]
    exact hB
  · rw [hchar (A ++ T)]
    unfold execLookup
    rw [find?_snd_none_of _ _ (by
      intro q hq
      fin_cases hq
      · exact Ne.symm hne2
      · exact Ne.symm hne1)]
    have hany : ([(A, B), (B, A)] : List (String × String)).any
        (fun q => q.1 == A ++ T || q.1 ++ T == A ++ T) = true :=
      List.any_eq_true.mpr ⟨(A, B), by simp, by simp⟩
    simp only [hany]
    simp
  · rw [hchar (B ++ T)]
    unfold execLookup
    rw [find?_snd_none_of _ _ (by
      intro q hq
      fin_cases hq
      · exact Ne.symm hne4
      · exact Ne.symm hne3)]
    have hany : ([(A, B), (B, A)] : List (String × String)).any
        (fun q => q.1 == B ++ T || q.1 ++ T == B ++ T) = true :=
      List.any_eq_true.mpr ⟨(B, A), by simp, by simp⟩
    simp only [hany]
    simp
  · intro n hnA hnB hnAT hnBT
    rw [hchar n]
    unfold execLookup
    rw [find?_snd_none_of _ _ (by
      intro q hq
      fin_cases hq
      · exact Ne.symm hnB
      · exact Ne.symm hnA)]
    have hany : ([(A, B), (B, A)] : List (String × String)).any
        (fun q => q.1 == n || q.1 ++ T == n) = false := by
      rw [List.any_eq_false]
      intro q hq
      fin_cases hq
      · simp only [Bool.or_eq_true, not_or, beq_iff_eq]
        exact ⟨Ne.symm hnA, Ne.symm hnAT⟩
      · simp only [Bool.or_eq_true, not_or, beq_iff_eq]
        exact ⟨Ne.symm hnB, Ne.symm hnBT⟩
    simp only [hany, Bool.false_eq_true, if_false]

/-- C2 (witness): the swap theorem at a concrete two-file directory. -/
theorem two_phase_swap_witness :
    ∃ fs2, two_phase_rename [("A.jpg", "B.jpg"), ("B.jpg", "A.jpg")] false ".__tmp__"
        [("A.jpg", 0), ("B.jpg", 1)] = some (fs2, [("A.jpg", "B.jpg"), ("B.jpg", "A.jpg")]) ∧
      lookupFs "B.jpg" fs2 = some 0 ∧ lookupFs "A.jpg" fs2 = some 1 ∧
      lookupFs ("A.jpg" ++ ".__tmp__") fs2 = none ∧
      lookupFs ("B.jpg" ++ ".__tmp__") fs2 = none ∧
      ∀ n, n ≠ "A.jpg" → n ≠ "B.jpg" → n ≠ "A.jpg" ++ ".__tmp__" →
        n ≠ "B.jpg" ++ ".__tmp__" →
        lookupFs n fs2 = lookupFs n [("A.jpg", 0), ("B.jpg", 1)] :=
  two_phase_swap "A.jpg" "B.jpg" 0 1 ".__tmp__" [("A.jpg", 0), ("B.jpg", 1)]
    (by decide) (by decide) (by decide) (by decide) (by decide) (by decide)
    (by decide) (by decide) (by decide) (by decide)

/-- C3: the collision guard, a pure check run strictly before any mutation,
accepts a plan exactly when no two entries share a destination path and
every destination that already exists in the directory resolves to one of
the plan's own source paths; a duplicated destination (even among just two
entries) is reported as `DuplicateTarget`, and an existing foreign occupant
is reported as `TargetAlreadyExists` naming the file. -/
theorem ensure_no_collisions_spec (pairs : List (String × String)) (fs : Fs) :
    (ensure_no_collisions pairs fs = .ok () ↔
      ((pairs.map Prod.snd).Nodup ∧
       ∀ p ∈ pairs, (lookupFs p.2 fs).isSome → p.2 ∈ pairs.map Prod.fst)) ∧
    (¬ (pairs.map Prod.snd).Nodup →
      ensure_no_collisions pairs fs = .error .DuplicateTarget) ∧
    (((pairs.map Prod.snd).Nodup ∧
        ∃ p ∈ pairs, (lookupFs p.2 fs).isSome ∧ p.2 ∉ pairs.map Prod.fst) →
      ∃ nm, ensure_no_collisions pairs fs = .error (.TargetAlreadyExists nm)) := by
  refine ⟨ensure_no_collisions_ok_iff pairs fs, ensure_no_collisions_dup pairs fs, ?_⟩
  rintro ⟨hnd, p, hp, hsome, hnmem⟩
  unfold ensure_no_collisions
  rw [if_pos hnd]
  cases hf : pairs.find? (fun pr =>
      (lookupFs pr.2 fs).isSome && !((pairs.map Prod.fst).contains pr.2)) with
  | some pr => exact ⟨pr.2, rfl⟩
  | none =>
    exfalso
    apply List.find?_eq_none.mp hf p hp
    simp only [Bool.and_eq_true, Bool.not_eq_true']
    refine ⟨hsome, ?_⟩
    cases hx : (pairs.map Prod.fst).contains p.2 with
    | false => rfl
    | true => exact absurd (List.mem_of_elem_eq_true hx) hnmem

/-- C3 (witness): the characterization applied to a two-entry duplicate
plan, a plan with a pre-existing foreign occupant, and an accepted plan. -/
theorem ensure_no_collisions_spec_witness :
    ensure_no_collisions [("a.jpg", "x.jpg"), ("b.jpg", "x.jpg")] [] =
      .error CollisionError.DuplicateTarget ∧
    (∃ nm, ensure_no_collisions [("a.jpg", "n.jpg")] [("n.jpg", 5)] =
      .error (CollisionError.TargetAlreadyExists nm)) ∧
    ensure_no_collisions [("a.jpg", "b.jpg")] [("a.jpg", 0)] = .ok () :=
  ⟨(ensure_no_collisions_spec [("a.jpg", "x.jpg"), ("b.jpg", "x.jpg")] []).2.1 (by decide),
   (ensure_no_collisions_spec [("a.jpg", "n.jpg")] [("n.jpg", 5)]).2.2 (by decide),
   (ensure_no_collisions_spec [("a.jpg", "b.jpg")] [("a.jpg", 0)]).1.mpr (by decide)⟩

/-- C9: with `previewOnly` set, Execute returns the directory unchanged
together with exactly the mapping a real run on the same plan would return,
and the pipeline writes no log record (the log component is `none`); on a
real run the persisted log equals the returned mapping. -/
theorem preview_no_mutation (pairs : List (String × String)) (T : String) (fs : Fs) :
    two_phase_rename pairs true T fs = some (fs, pairs) ∧
    (∀ fs2 m, two_phase_rename pairs false T fs = some (fs2, m) → m = pairs) ∧
    execute_and_log pairs true T fs = some (fs, pairs, none) := by
  refine ⟨rfl, ?_, rfl⟩
  intro fs2 m h
  unfold two_phase_rename at h
  cases ha : applyRenamesE (pairs.map fun pr => (pr.1, pr.1 ++ T)) fs with
  | error e =>
    rw [ha] at h
    simp at h
  | ok fs1 =>
    rw [ha] at h
    simp only [Bool.false_eq_true, if_false] at h
    cases hb : applyRenamesE (pairs.map fun pr => (pr.1 ++ T, pr.2)) fs1 with
    | error e =>
      rw [hb] at h
      simp at h
    | ok fsx =>
      rw [hb] at h
      simp at h
      exact h.2.symm

/-- C9 (witness): preview on a concrete plan leaves the directory as it
was, returns the plan as the mapping, and writes no log. -/
theorem preview_no_mutation_witness :
    execute_and_log [("a.jpg", "b.jpg")] true "T" [("a.jpg", 3)] =
      some ([("a.jpg", 3)], [("a.jpg", "b.jpg")], none) :=
  (preview_no_mutation [("a.jpg", "b.jpg")] "T" [("a.jpg", 3)]).2.2

/-- C10: Undo evaluates its pre-checks on every reversed pair before
performing any rename — in the code the whole check loop precedes the
rename loop — so when any reversed pair fails a pre-check, `undo` stops
with an error and the directory it reports is exactly the unchanged input
directory. -/
theorem undo_precheck_atomic (logPairs : List (String × String)) (fs : Fs)
    (op : String × String) (hop : op ∈ undoOps logPairs)
    (hbad : ¬ ((lookupFs op.1 fs).isSome ∧
      ((lookupFs op.2 fs).isSome → op.2 = op.1))) :
    ∃ e, undo logPairs false fs = UndoResult.err e fs := by
  obtain ⟨e, he⟩ := undoChecks_err (undoOps logPairs) fs op hop hbad
  exact ⟨e, by simp only [undo, he]⟩

/-- C10 (witness): a log whose second reversed pair fails the
target-exists pre-check makes `undo` fail with the directory unchanged. -/
theorem undo_precheck_atomic_witness :
    ∃ e, undo [("A.jpg", "B.jpg"), ("B.jpg", "A.jpg")] false [("A.jpg", 1), ("B.jpg", 0)] =
      UndoResult.err e [("A.jpg", 1), ("B.jpg", 0)] :=
  undo_precheck_atomic [("A.jpg", "B.jpg"), ("B.jpg", "A.jpg")] [("A.jpg", 1), ("B.jpg", 0)]
    ("A.jpg", "B.jpg") (by decide) (by decide)

/-! ## Zero padding lemmas -/

theorem pyZfill_of_le (s : String) (w : Nat) (h : w ≤ s.length) : pyZfill s w = s := by
  unfold pyZfill
  rw [if_pos h]

theorem pyZfill_length (s : String) (w : Nat) :
    (pyZfill s w).length = max w s.length := by
  unfold pyZfill
  by_cases h : w ≤ s.length
  · rw [if_pos h]
    exact (Nat.max_eq_right h).symm
  · rw [if_neg h]
    have hlen : s.length = s.data.length := by cases s; rfl
    have hmax : max w s.length = w := Nat.max_eq_left (by omega)
    cases hs : s.data with
    | nil =>
      have hs0 : s.length = 0 := by rw [hlen, hs]; rfl
      show (List.replicate w '0').length = max w s.length
      rw [List.length_replicate, hmax]
    | cons c cs =>
      have hsl : s.length = cs.length + 1 := by rw [hlen, hs]; rfl
      show (if c = '-' ∨ c = '+' then
          ({ data := c :: (List.replicate (w - s.length) '0' ++ cs) } : String)
        else { data := List.replicate (w - s.length) '0' ++ (c :: cs) }).length =
        max w s.length
      by_cases hc : c = '-' ∨ c = '+'
      · rw [if_pos hc, hmax]
        show (c :: (List.replicate (w - s.length) '0' ++ cs)).length = w
        rw [List.length_cons, List.length_append, List.length_replicate]
        omega
      · rw [if_neg hc, hmax]
        show (List.replicate (w - s.length) '0' ++ (c :: cs)).length = w
        rw [List.length_append, List.length_replicate, List.length_cons]
        omega

theorem pyZfill_pad (c : Char) (cs : List Char) (w : Nat) (hc1 : c ≠ '-') (hc2 : c ≠ '+')
    (hw : (String.mk (c :: cs)).length < w) :
    pyZfill (String.mk (c :: cs)) w =
      String.mk (List.replicate (w - (c :: cs).length) '0' ++ (c :: cs)) := by
  unfold pyZfill
  rw [if_neg (by omega)]
  show (if c = '-' ∨ c = '+' then
      ({ data := c :: (List.replicate (w - (String.mk (c :: cs)).length) '0' ++ cs) } : String)
    else { data := List.replicate (w - (String.mk (c :: cs)).length) '0' ++ (c :: cs) }) =
    String.mk (List.replicate (w - (c :: cs).length) '0' ++ (c :: cs))
  rw [if_neg (not_or.mpr ⟨hc1, hc2⟩)]
  rfl

/-- C4: counter width semantics of `render_from_segments`.  A width of at
most 1 renders the plain decimal; a value whose decimal form already
reaches the width is emitted in full, never truncated; for width above 1
the rendered text is the `str.zfill` padding of the decimal, whose length
is the maximum of the width and the decimal's length, and for an unsigned
decimal it is exactly leading zeros followed by the full decimal.  The
planning loop renders a width-3 per-run counter starting at 7 as 007, 008,
009 on the first three files, and the width-1 variant as 7, 8, 9. -/
theorem render_width_semantics :
    (∀ (v : Int) (w : Nat), w ≤ 1 → renderCounter v w = toString v) ∧
    (∀ (v : Int) (w : Nat), w ≤ (toString v).length → renderCounter v w = toString v) ∧
    (∀ (v : Int) (w : Nat), 1 < w → (renderCounter v w).length = max w (toString v).length) ∧
    (∀ (v : Int) (w : Nat), 1 < w → renderCounter v w = pyZfill (toString v) w) ∧
    (∀ (c : Char) (cs : List Char) (w : Nat), c ≠ '-' → c ≠ '+' →
      (String.mk (c :: cs)).length < w →
      pyZfill (String.mk (c :: cs)) w =
        String.mk (List.replicate (w - (c :: cs).length) '0' ++ (c :: cs))) ∧
    (build_pairs ["f1.jpg", "f2.jpg", "f3.jpg"] [Segment.d 3 7] 1
        (init_d_counters [Segment.d 3 7]) =
      some [("f1.jpg", "007.jpg"), ("f2.jpg", "008.jpg"), ("f3.jpg", "009.jpg")]) ∧
    (build_pairs ["f1.jpg", "f2.jpg", "f3.jpg"] [Segment.d 1 7] 1
        (init_d_counters [Segment.d 1 7]) =
      some [("f1.jpg", "7.jpg"), ("f2.jpg", "8.jpg"), ("f3.jpg", "9.jpg")]) := by
  refine ⟨?_, ?_, ?_, ?_, pyZfill_pad, by decide, by decide⟩
  · intro v w h
    unfold renderCounter
    rw [if_neg (by omega)]
  · intro v w h
    by_cases h1 : 1 < w
    · unfold renderCounter
      rw [if_pos h1]
      exact pyZfill_of_le _ _ h
    · unfold renderCounter
      rw [if_neg h1]
  · intro v w h
    unfold renderCounter
    rw [if_pos h]
    exact pyZfill_length _ _
  · intro v w h
    unfold renderCounter
    rw [if_pos h]

/-- C4 (witness): the width conjuncts applied at concrete values: an
over-long value is emitted in full at width 3, width 1 renders the plain
decimal, and a width-3 rendering of 7 has length 3. -/
theorem render_width_semantics_witness :
    renderCounter 12345 3 = toString (12345 : Int) ∧
    renderCounter 7 1 = toString (7 : Int) ∧
    (renderCounter 7 3).length = max 3 (toString (7 : Int)).length :=
  ⟨render_width_semantics.2.1 12345 3 (by decide),
   render_width_semantics.1 7 1 (by decide),
   render_width_semantics.2.2.1 7 3 (by decide)⟩

/-- C5: the planning loop initializes the shared counter to the given start
value and the per-run counters to the values written in their digit runs
(`init_d_counters`), and after rendering each candidate it advances the
shared counter by 1 exactly when a shared-counter segment is present, and
every per-run counter by 1 independently.  Concretely, with one shared
segment and digit runs 001 and 500, three files render as 1-001-500,
2-002-501, 3-003-502. -/
theorem plan_counters :
    (∀ (p : String) (ps : List String) (segs : List Segment) (xc : Int)
        (dcs : List Int) (base : String),
      render_from_segments segs xc dcs = some base →
      build_pairs (p :: ps) segs xc dcs =
        (build_pairs ps segs (if has_x_segment segs then xc + 1 else xc)
          (if 0 < count_d_segments segs then dcs.map (fun v => v + 1) else dcs)).map
          (fun rest => (p, base ++ pySuffix p) :: rest)) ∧
    (init_d_counters [Segment.x 1, Segment.lit "-", Segment.d 3 1, Segment.lit "-",
        Segment.d 3 500] = [1, 500]) ∧
    (tokenize_template "x-001-500" = some [Segment.x 1, Segment.lit "-", Segment.d 3 1,
        Segment.lit "-", Segment.d 3 500]) ∧
    (plan_from_template "x-001-500" 1 ["a.jpg", "b.jpg", "c.jpg"] =
      .ok [("a.jpg", "1-001-500.jpg"), ("b.jpg", "2-002-501.jpg"),
           ("c.jpg", "3-003-502.jpg")]) := by
  have htok : tokenize_template "x-001-500" = some [Segment.x 1, Segment.lit "-",
      Segment.d 3 1, Segment.lit "-", Segment.d 3 500] := by
    simp +decide [tokenize_template, tokAux]
  refine ⟨?_, by decide, htok, ?_⟩
  · intro p ps segs xc dcs base h
    simp only [build_pairs, h]
  · unfold plan_from_template
    rw [htok]
    decide

/-- C5 (witness): one step of the planning loop at a concrete state: the
shared counter moves from 1 to 2 and the per-run counter from 5 to 6. -/
theorem plan_counters_witness :
    build_pairs ["a.jpg", "b.jpg"] [Segment.x 1, Segment.d 2 5] 1 [5] =
      (build_pairs ["b.jpg"] [Segment.x 1, Segment.d 2 5]
        (if has_x_segment [Segment.x 1, Segment.d 2 5] then (1 : Int) + 1 else 1)
        (if 0 < count_d_segments [Segment.x 1, Segment.d 2 5]
          then [(5 : Int)].map (fun v => v + 1) else [5])).map
        (fun rest => ("a.jpg", "105" ++ pySuffix "a.jpg") :: rest) :=
  plan_counters.1 "a.jpg" ["b.jpg"] [Segment.x 1, Segment.d 2 5] 1 [5] "105" (by decide)

/-! ## Tokenizer span lemmas -/

theorem takeWhile_append_all (p : Char → Bool) (l t : List Char)
    (h : ∀ ch ∈ l, p ch = true) :
    (l ++ t).takeWhile p = l ++ t.takeWhile p := by
  induction l with
  | nil => rfl
  | cons c cs ih =>
    have hc : p c = true := h c (List.mem_cons_self _ _)
    simp only [List.cons_append, List.takeWhile_cons, hc, if_true]
    rw [ih (fun ch hch => h ch (List.mem_cons_of_mem _ hch))]

theorem dropWhile_append_all (p : Char → Bool) (l t : List Char)
    (h : ∀ ch ∈ l, p ch = true) :
    (l ++ t).dropWhile p = t.dropWhile p := by
  induction l with
  | nil => rfl
  | cons c cs ih =>
    have hc : p c = true := h c (List.mem_cons_self _ _)
    simp only [List.cons_append, List.dropWhile_cons, hc, if_true]
    exact ih (fun ch hch => h ch (List.mem_cons_of_mem _ hch))

theorem tokAux_bracket (inner rest : List Char) (h : ∀ ch ∈ inner, ch ≠ ']') :
    tokAux ('[' :: (inner ++ ']' :: rest)) =
      (tokAux rest).map (fun segs => Segment.lit (String.mk inner) :: segs) := by
  have hall : ∀ ch ∈ inner, (ch != ']') = true := fun ch hch => by simpa using h ch hch
  have htake : (inner ++ ']' :: rest).takeWhile (fun ch => ch != ']') = inner := by
    rw [takeWhile_append_all _ _ _ hall]
    simp [List.takeWhile_cons]
  have hdrop : (inner ++ ']' :: rest).dropWhile (fun ch => ch != ']') = ']' :: rest := by
    rw [dropWhile_append_all _ _ _ hall]
    simp [List.dropWhile_cons]
  conv_lhs => rw [tokAux.eq_def]
  simp +decide [htake, hdrop]

/-- C6: a bracket span yields a `Literal` segment holding exactly the text
between the brackets, verbatim — digits and counter markers included — with
the brackets dropped, and Render emits a literal segment's text unchanged
regardless of the counter state; the pattern `[x123]y5` tokenizes to the
literal `x123`, the literal `y` and a width-1 digit segment, and renders as
the literal text concatenated with the rendered counter for any counter
values. -/
theorem bracket_literalism :
    (∀ (inner rest : List Char), (∀ ch ∈ inner, ch ≠ ']') →
      tokAux ('[' :: (inner ++ ']' :: rest)) =
        (tokAux rest).map (fun segs => Segment.lit (String.mk inner) :: segs)) ∧
    (∀ (t : String) (segs : List Segment) (xv : Int) (ds : List Int),
      render_from_segments (Segment.lit t :: segs) xv ds =
        (render_from_segments segs xv ds).map (fun s => t ++ s)) ∧
    (tokenize_template "[x123]y5" =
      some [Segment.lit "x123", Segment.lit "y", Segment.d 1 5]) ∧
    (∀ (xv v : Int),
      render_from_segments [Segment.lit "x123", Segment.lit "y", Segment.d 1 5] xv [v] =
        some ("x123" ++ ("y" ++ (renderCounter v 1 ++ "")))) := by
  refine ⟨tokAux_bracket, fun t segs xv ds => rfl, ?_, fun xv v => rfl⟩
  simp +decide [tokenize_template, tokAux]

/-- C6 (witness): the bracket-span lemma applied to the `[x123]y5`
character list. -/
theorem bracket_literalism_witness :
    tokAux ('[' :: (['x', '1', '2', '3'] ++ ']' :: ['y', '5'])) =
      (tokAux ['y', '5']).map
        (fun segs => Segment.lit (String.mk ['x', '1', '2', '3']) :: segs) :=
  bracket_literalism.1 ['x', '1', '2', '3'] ['y', '5'] (by decide)

/-! ## Unbalanced bracket lemmas -/

theorem split_after_clean (a b l₁ l₂ : List Char) (heq : a ++ b = l₁ ++ '[' :: l₂)
    (ha : '[' ∉ a) : ∃ m, b = m ++ '[' :: l₂ := by
  induction a generalizing l₁ with
  | nil => exact ⟨l₁, heq⟩
  | cons c a' ih =>
    cases l₁ with
    | nil =>
      simp only [List.cons_append, List.nil_append] at heq
      obtain ⟨hc, -⟩ := List.cons.inj heq
      exact absurd (hc ▸ List.mem_cons_self c a') ha
    | cons d l₁' =>
      simp only [List.cons_append] at heq
      obtain ⟨-, htl⟩ := List.cons.inj heq
      exact ih l₁' htl (fun hm => ha (List.mem_cons_of_mem _ hm))

theorem split_after_rbracket (inner r l₁ l₂ : List Char)
    (heq : inner ++ ']' :: r = l₁ ++ '[' :: l₂) (hl₂ : ']' ∉ l₂) :
    ∃ m, r = m ++ '[' :: l₂ := by
  induction inner generalizing l₁ with
  | nil =>
    cases l₁ with
    | nil =>
      simp only [List.nil_append] at heq
      obtain ⟨hc, -⟩ := List.cons.inj heq
      exact absurd hc (by decide)
    | cons d l₁' =>
      simp only [List.nil_append, List.cons_append] at heq
      obtain ⟨-, htl⟩ := List.cons.inj heq
      exact ⟨l₁', htl⟩
  | cons c inner' ih =>
    cases l₁ with
    | nil =>
      simp only [List.cons_append, List.nil_append] at heq
      obtain ⟨-, htl⟩ := List.cons.inj heq
      exact absurd (htl ▸ (List.mem_append_right inner' (List.mem_cons_self ']' r)))
        hl₂
    | cons d l₁' =>
      simp only [List.cons_append] at heq
      obtain ⟨-, htl⟩ := List.cons.inj heq
      exact ih l₁' htl

theorem dropWhile_head_false (p : Char → Bool) (l : List Char) (e : Char) (r : List Char)
    (h : l.dropWhile p = e :: r) : p e = false := by
  induction l with
  | nil => cases h
  | cons c l' ih =>
    rw [List.dropWhile_cons] at h
    by_cases hc : p c = true
    · rw [if_pos hc] at h
      exact ih h
    · rw [if_neg hc] at h
      obtain ⟨he, -⟩ := List.cons.inj h
      rw [← he]
      cases hx : p c with
      | true => exact absurd hx hc
      | false => rfl

theorem tokAux_unmatched_aux :
    ∀ n (l l₁ l₂ : List Char), l.length ≤ n → l = l₁ ++ '[' :: l₂ → ']' ∉ l₂ →
      tokAux l = none := by
  intro n
  induction n with
  | zero =>
    intro l l₁ l₂ hlen heq _
    subst heq
    rw [List.length_append, List.length_cons] at hlen
    omega
  | succ n ih =>
    intro l l₁ l₂ hlen heq hl₂
    cases l₁ with
    | nil =>
      subst heq
      simp only [List.nil_append] at hlen ⊢
      have hdrop : l₂.dropWhile (fun ch => ch != ']') = [] := by
        rw [List.dropWhile_eq_nil_iff]
        intro x hx
        have hne : x ≠ ']' := fun he => hl₂ (he ▸ hx)
        simpa using hne
      conv_lhs => rw [tokAux.eq_def]
      simp +decide [hdrop]
    | cons c l₁' =>
      subst heq
      simp only [List.cons_append] at hlen ⊢
      have hrest_len : (l₁' ++ '[' :: l₂).length ≤ n := by
        rw [List.length_cons] at hlen
        omega
      by_cases hc1 : c = '['
      · subst hc1
        cases hd : (l₁' ++ '[' :: l₂).dropWhile (fun ch => ch != ']') with
        | nil =>
          conv_lhs => rw [tokAux.eq_def]
          simp +decide [hd]
        | cons e rest2 =>
          have hpe : e = ']' := by
            have := dropWhile_head_false _ _ _ _ hd
            simpa using this
          subst hpe
          have hsplit := List.takeWhile_append_dropWhile
            (fun ch => ch != ']') (l₁' ++ '[' :: l₂)
          rw [hd] at hsplit
          obtain ⟨m, hm⟩ := split_after_rbracket _ _ _ _ hsplit hl₂
          have hlen2 : rest2.length ≤ n := by
            have h1 : ((l₁' ++ '[' :: l₂).dropWhile (fun ch => ch != ']')).length ≤
                (l₁' ++ '[' :: l₂).length :=
              (List.dropWhile_suffix _).sublist.length_le
            rw [hd, List.length_cons] at h1
            omega
          have htok : tokAux rest2 = none := ih rest2 m l₂ hlen2 hm hl₂
          conv_lhs => rw [tokAux.eq_def]
          simp +decide [hd, htok]
      · by_cases hc2 : c = 'x' ∨ c = 'X'
        · have hnotin : '[' ∉ (l₁' ++ '[' :: l₂).takeWhile
              (fun ch => ch == 'x' || ch == 'X') := by
            intro hmem
            have := List.mem_takeWhile_imp hmem
            simp at this
          have hsplit := List.takeWhile_append_dropWhile
            (fun ch => ch == 'x' || ch == 'X') (l₁' ++ '[' :: l₂)
          obtain ⟨m, hm⟩ := split_after_clean _ _ _ _ hsplit hnotin
          have hlen2 : ((l₁' ++ '[' :: l₂).dropWhile
              (fun ch => ch == 'x' || ch == 'X')).length ≤ n := by
            have h1 := (List.dropWhile_suffix
              (fun ch => ch == 'x' || ch == 'X') (l := l₁' ++ '[' :: l₂)).sublist.length_le
            omega
          have htok := ih _ m l₂ hlen2 hm hl₂
          conv_lhs => rw [tokAux.eq_def]
          simp +decide [hc1, hc2, htok]
        · by_cases hc3 : c.isDigit
          · have hnotin : '[' ∉ (l₁' ++ '[' :: l₂).takeWhile Char.isDigit := by
              intro hmem
              have := List.mem_takeWhile_imp hmem
              simp at this
            have hsplit := List.takeWhile_append_dropWhile
              Char.isDigit (l₁' ++ '[' :: l₂)
            obtain ⟨m, hm⟩ := split_after_clean _ _ _ _ hsplit hnotin
            have hlen2 : ((l₁' ++ '[' :: l₂).dropWhile Char.isDigit).length ≤ n := by
              have h1 := (List.dropWhile_suffix
                Char.isDigit (l := l₁' ++ '[' :: l₂)).sublist.length_le
              omega
            have htok := ih _ m l₂ hlen2 hm hl₂
            conv_lhs => rw [tokAux.eq_def]
            simp +decide [hc1, hc2, hc3, htok]
          · have hnotin : '[' ∉ (l₁' ++ '[' :: l₂).takeWhile
                (fun ch => !ch.isDigit && ch != 'x' && ch != 'X' && ch != '[') := by
              intro hmem
              have := List.mem_takeWhile_imp hmem
              simp at this
            have hsplit := List.takeWhile_append_dropWhile
              (fun ch => !ch.isDigit && ch != 'x' && ch != 'X' && ch != '[')
              (l₁' ++ '[' :: l₂)
            obtain ⟨m, hm⟩ := split_after_clean _ _ _ _ hsplit hnotin
            have hlen2 : ((l₁' ++ '[' :: l₂).dropWhile
                (fun ch => !ch.isDigit && ch != 'x' && ch != 'X' && ch != '[')).length ≤ n := by
              have h1 := (List.dropWhile_suffix
                (fun ch => !ch.isDigit && ch != 'x' && ch != 'X' && ch != '[')
                (l := l₁' ++ '[' :: l₂)).sublist.length_le
              omega
            have htok := ih _ m l₂ hlen2 hm hl₂
            conv_lhs => rw [tokAux.eq_def]
            simp +decide [hc1, hc2, hc3, htok]

/-- C7: for every pattern containing an open bracket with no matching close
bracket anywhere after it, Tokenize fails with the unbalanced-bracket
error, and the pipeline stage fails with `UnbalancedBracket` before the
planning loop ever pairs a candidate — tokenization is a pure computation
run before any filesystem operation. -/
theorem tokenize_unbalanced (tpl : String) (l₁ l₂ : List Char) (start : Int)
    (cands : List String) (heq : tpl.data = l₁ ++ '[' :: l₂) (hl₂ : ']' ∉ l₂) :
    tokenize_template tpl = none ∧
    plan_from_template tpl start cands = .error PlanError.UnbalancedBracket := by
  have htok : tokenize_template tpl = none := by
    unfold tokenize_template
    exact tokAux_unmatched_aux tpl.data.length tpl.data l₁ l₂ le_rfl heq hl₂
  refine ⟨htok, ?_⟩
  unfold plan_from_template
  rw [htok]

/-- C7 (witness): the pattern `abc[def` fails to tokenize and the pipeline
reports the unbalanced bracket. -/
theorem tokenize_unbalanced_witness :
    tokenize_template "abc[def" = none ∧
    plan_from_template "abc[def" 1 ["a.jpg"] = .error PlanError.UnbalancedBracket :=
  tokenize_unbalanced "abc[def" ['a', 'b', 'c'] ['d', 'e', 'f'] 1 ["a.jpg"]
    (by decide) (by decide)

/-! ## Planner totality lemmas -/

theorem init_d_counters_length (segs : List Segment) :
    (init_d_counters segs).length = count_d_segments segs := by
  induction segs with
  | nil => rfl
  | cons s rest ih =>
    cases s with
    | lit t => simpa [init_d_counters, count_d_segments, List.countP_cons] using ih
    | x w => simpa [init_d_counters, count_d_segments, List.countP_cons] using ih
    | d w v => simpa [init_d_counters, count_d_segments, List.countP_cons] using ih

theorem renderAux_isSome (segs : List Segment) (xv : Int) (dvals : List Int) :
    ∀ idx, idx + count_d_segments segs ≤ dvals.length →
      (renderAux segs xv dvals idx).isSome := by
  induction segs with
  | nil =>
    intro idx _
    rfl
  | cons s rest ih =>
    intro idx h
    cases s with
    | lit t =>
      have hc : count_d_segments (Segment.lit t :: rest) = count_d_segments rest := by
        simp [count_d_segments, List.countP_cons]
      rw [hc] at h
      have := ih idx h
      obtain ⟨r, hr⟩ := Option.isSome_iff_exists.mp this
      simp [renderAux, hr]
    | x w =>
      have hc : count_d_segments (Segment.x w :: rest) = count_d_segments rest := by
        simp [count_d_segments, List.countP_cons]
      rw [hc] at h
      have := ih idx h
      obtain ⟨r, hr⟩ := Option.isSome_iff_exists.mp this
      simp [renderAux, hr]
    | d w sv =>
      have hc : count_d_segments (Segment.d w sv :: rest) =
          count_d_segments rest + 1 := by
        simp [count_d_segments, List.countP_cons]
      rw [hc] at h
      have hidx : idx < dvals.length := by omega
      have := ih (idx + 1) (by omega)
      obtain ⟨r, hr⟩ := Option.isSome_iff_exists.mp this
      cases hx : dvals[idx]? with
      | none =>
        have := List.getElem?_eq_none_iff.mp hx
        omega
      | some v => simp [renderAux, hx, hr]

theorem build_pairs_isSome (cands : List String) (segs : List Segment) :
    ∀ (xc : Int) (dcs : List Int), count_d_segments segs ≤ dcs.length →
      (build_pairs cands segs xc dcs).isSome := by
  induction cands with
  | nil =>
    intro xc dcs _
    rfl
  | cons p ps ih =>
    intro xc dcs h
    have hr : (render_from_segments segs xc dcs).isSome :=
      renderAux_isSome segs xc dcs 0 (by omega)
    obtain ⟨base, hb⟩ := Option.isSome_iff_exists.mp hr
    have h' : count_d_segments segs ≤
        (if 0 < count_d_segments segs then dcs.map (fun v => v + 1) else dcs).length := by
      split
      · simpa using h
      · exact h
    have := ih (if has_x_segment segs then xc + 1 else xc) _ h'
    obtain ⟨rest, hrest⟩ := Option.isSome_iff_exists.mp this
    simp [build_pairs, hb, hrest]

/-- C8: the pipeline fails with `TemplateHasNoCounter`, touching no file —
the check is a pure test before the planning loop — for every tokenized
template containing neither a shared-counter nor a per-run counter segment
(in particular when every digit and counter marker is enclosed in a
bracket-literal span), and it produces a plan whenever at least one counter
segment is present. -/
theorem template_no_counter (tpl : String) (segs : List Segment) (start : Int)
    (cands : List String) (htok : tokenize_template tpl = some segs) :
    ((has_x_segment segs = false ∧ count_d_segments segs = 0) →
      plan_from_template tpl start cands = .error PlanError.TemplateHasNoCounter) ∧
    ((has_x_segment segs = true ∨ 0 < count_d_segments segs) →
      ∃ prs, plan_from_template tpl start cands = .ok prs) := by
  constructor
  · intro hno
    simp only [plan_from_template, htok]
    rw [if_pos hno]
  · intro hyes
    simp only [plan_from_template, htok]
    have hcond : ¬ (has_x_segment segs = false ∧ count_d_segments segs = 0) := by
      rintro ⟨h1, h2⟩
      rcases hyes with h | h
      · rw [h] at h1
        exact absurd h1 (by simp)
      · omega
    rw [if_neg hcond]
    have hsome := build_pairs_isSome cands segs start (init_d_counters segs)
      (le_of_eq (init_d_counters_length segs).symm)
    obtain ⟨prs, hprs⟩ := Option.isSome_iff_exists.mp hsome
    rw [hprs]
    exact ⟨prs, rfl⟩

/-- C8 (witness): the all-bracketed template `[x123]` — whose digits and
counter markers are all literal — is rejected with `TemplateHasNoCounter`,
while a template with one digit segment yields a plan. -/
theorem template_no_counter_witness :
    plan_from_template "[x123]" 1 ["f1.jpg"] = .error PlanError.TemplateHasNoCounter ∧
    (∃ prs, plan_from_template "a7" 1 ["f1.jpg"] = .ok prs) := by
  have h1 : tokenize_template "[x123]" = some [Segment.lit "x123"] := by
    simp +decide [tokenize_template, tokAux]
  have h2 : tokenize_template "a7" = some [Segment.lit "a", Segment.d 1 7] := by
    simp +decide [tokenize_template, tokAux]
  exact ⟨(template_no_counter "[x123]" [Segment.lit "x123"] 1 ["f1.jpg"] h1).1 (by decide),
         (template_no_counter "a7" [Segment.lit "a", Segment.d 1 7] 1 ["f1.jpg"] h2).2
           (by decide)⟩
